import Mathlib

/-!
Verification development for the Quelldex embedded version-control engine
(`src/core/vcs.py`, class `VCS`).

The Python code keeps its state in an on-disk object directory plus five
SQLite tables; snapshots and indices are Python dicts.  The shallow
embedding below models:

* Python dicts as association lists (`assoc_get`, `assoc_set` mirror
  `d[k]` / `d[k] = v`: replace in place if the key exists, else append,
  which matches dict insertion-order semantics);
* byte strings as `List Nat`, digests as `String`;
* file modification times and timestamps as `ℚ` (the code compares
  mtimes with `abs(a - b) < 0.001`);
* the SHA-256-truncation `_hash_content`, the JSON serializer and
  deserializer as function parameters (`hashB`, `hashS`, `ser`,
  `deser`) — the claims under study do not depend on the concrete
  digest or encoding, only on how the engine uses them;
* the repository state (object store, commits, branches, current-branch
  register, tags, working tree) as one structure `VCSState`, with each
  `VCS` method an explicit state-passing function.
-/

namespace Quelldex

abbrev Bytes := List Nat

abbrev Digest := String

abbrev FPath := String

/-- Association-list lookup, modelling Python `d[k]` / `k in d`. -/
def assoc_get {κ β : Type} [DecidableEq κ] : List (κ × β) → κ → Option β
  | [], _ => none
  | (k', v) :: t, k => if k' = k then some v else assoc_get t k

/-- Association-list update, modelling Python `d[k] = v`: replace the
existing binding in place, else append at the end (dict insertion order). -/
def assoc_set {κ β : Type} [DecidableEq κ] : List (κ × β) → κ → β → List (κ × β)
  | [], k, v => [(k, v)]
  | (k', v') :: t, k, v => if k' = k then (k, v) :: t else (k', v') :: assoc_set t k v

/-- The keys of an association list, in order. -/
def assoc_keys {κ β : Type} (l : List (κ × β)) : List κ := l.map Prod.fst

/-- One snapshot entry: the value of `snapshot[rel]` built by
`_take_snapshot` — `{"hash": …, "size": …, "mtime": …}`. -/
structure Entry where
  hash : Digest
  size : Nat
  mtime : ℚ
deriving DecidableEq, Repr

/-- A snapshot: the dict from project-relative path to entry. -/
abbrev Snapshot := List (FPath × Entry)

/-- One row of the `branches` table. -/
structure Branch where
  name : String
  head_commit : Option String
  created_at : ℚ
  description : String
deriving DecidableEq, Repr

/-- One row of the `commits` table (`snapshot` is the digest of the
serialized snapshot object). -/
structure Commit where
  id : String
  branch : String
  parent_id : Option String
  timestamp : ℚ
  message : String
  author : String
  snapshot : Digest
deriving DecidableEq, Repr

/-- One row of the `tags` table. -/
structure Tag where
  name : String
  commit_id : String
  created_at : ℚ
  description : String
deriving DecidableEq, Repr

/-- A file of the working tree as the scanner sees it: relative path,
content bytes, and stat mtime. -/
structure WorkFile where
  path : FPath
  content : Bytes
  mtime : ℚ
deriving DecidableEq, Repr

/-- The content-addressed object directory, as a digest-keyed dict. -/
abbrev Objects := List (Digest × Bytes)

/-- The persistent state of one repository: the object store, the four
metadata tables the claims touch, the current-branch register, and the
working tree (the file system under the project root, as
`_get_tracked_files` / `_file_index` would enumerate it). -/
structure VCSState where
  objects : Objects
  commits : List Commit
  branches : List Branch
  currentBranch : Option String
  tags : List Tag
  workTree : List WorkFile
deriving DecidableEq, Repr

/-- VCS._store_object: hash the content, write the blob only if its
path does not already exist, return the digest. -/
def store_object (hashB : Bytes → Digest) (objects : Objects) (content : Bytes) :
    Digest × Objects :=
  let h := hashB content
  match assoc_get objects h with
  | some _ => (h, objects)
  | none => (h, objects ++ [(h, content)])

/-- VCS._read_object: return the stored bytes, or none. -/
def read_object (objects : Objects) (h : Digest) : Option Bytes :=
  assoc_get objects h

/-- SELECT ... FROM branches WHERE name = ?. -/
def find_branch : List Branch → String → Option Branch
  | [], _ => none
  | b :: t, name => if b.name = name then some b else find_branch t name

/-- SELECT ... FROM commits WHERE id = ?. -/
def find_commit : List Commit → String → Option Commit
  | [], _ => none
  | c :: t, cid => if c.id = cid then some c else find_commit t cid

/-- SELECT ... FROM tags WHERE name = ?. -/
def find_tag : List Tag → String → Option Tag
  | [], _ => none
  | t :: ts, name => if t.name = name then some t else find_tag ts name

/-- VCS._get_branch_head: the head commit of the named branch, or none
when there is no such row, the head is NULL, or (as in
`create_branch` when no branch is current) the name itself is None. -/
def get_branch_head (st : VCSState) : Option String → Option String
  | none => none
  | some name =>
    match find_branch st.branches name with
    | none => none
    | some b => b.head_commit

/-- VCS.get_commit. -/
def get_commit (st : VCSState) (cid : String) : Option Commit :=
  find_commit st.commits cid

/-- VCS.get_commit_snapshot: look up the commit, read its snapshot
object, deserialize.  `deser` stands for `json.loads`; the source
returns None when the commit is missing or the object's bytes are
missing or falsy (empty). -/
def get_commit_snapshot (deser : Bytes → Snapshot) (st : VCSState) (cid : String) :
    Option Snapshot :=
  match get_commit st cid with
  | none => none
  | some c =>
    match read_object st.objects c.snapshot with
    | none => none
    | some data => if data = [] then none else some (deser data)

/-- The body of the `for fp, info in src_snap.items()` loop of
VCS.merge_branch: one source item against the fixed target snapshot,
threading the `(merged, conflicts)` accumulator. -/
def merge_step (tgt_snap : Snapshot) (acc : Snapshot × List FPath) (pe : FPath × Entry) :
    Snapshot × List FPath :=
  match assoc_get tgt_snap pe.1 with
  | none => (assoc_set acc.1 pe.1 pe.2, acc.2)
  | some old =>
    if old.hash ≠ pe.2.hash then (assoc_set acc.1 pe.1 pe.2, acc.2 ++ [pe.1])
    else acc

/-- Lines 353-360 of `vcs.py`: start from a copy of the target
snapshot, fold the source items, collecting conflicts. -/
def merge_snapshots (src_snap tgt_snap : Snapshot) : Snapshot × List FPath :=
  src_snap.foldl (merge_step tgt_snap) (tgt_snap, [])

/-- Whether one source item would be recorded as a conflict: the path
is present in the target snapshot with a different content digest. -/
def conflict_of (tgt_snap : Snapshot) (pe : FPath × Entry) : Bool :=
  match assoc_get tgt_snap pe.1 with
  | some old => decide (old.hash ≠ pe.2.hash)
  | none => false

/-- VCS._take_snapshot: for every tracked file, store its content and
record `{digest, size, mtime}` under its relative path.  The working
tree stands for what `_get_tracked_files` enumerates; the object
writes are threaded through the state's object store. -/
def take_snapshot (hashB : Bytes → Digest) (st : VCSState) : Snapshot × VCSState :=
  let step := fun (acc : Snapshot × Objects) (f : WorkFile) =>
    let (h, objs) := store_object hashB acc.2 f.content
    (assoc_set acc.1 f.path ⟨h, f.content.length, f.mtime⟩, objs)
  let r := st.workTree.foldl step ([], st.objects)
  (r.1, { st with objects := r.2 })

/-- The commit-id input string `f"{branch}:{ts}:{message}:{snap_hash}"`. -/
def commit_id_string (branch : String) (ts : ℚ) (message : String) (snap_hash : Digest) :
    String :=
  branch ++ ":" ++ toString ts ++ ":" ++ message ++ ":" ++ snap_hash

/-- VCS.commit: refuse (return none) when there is no current branch or
the computed snapshot is empty; otherwise store the serialized
snapshot, insert the commit row, and advance the current branch's
head.  `hashS` is `_hash_content` on the id string, `ser` is
`json.dumps(..., sort_keys=True).encode()`, `ts` is `time.time()`. -/
def commit (hashB : Bytes → Digest) (hashS : String → Digest) (ser : Snapshot → Bytes)
    (st : VCSState) (message author : String) (ts : ℚ) : Option String × VCSState :=
  match st.currentBranch with
  | none => (none, st)
  | some branch =>
    let r := take_snapshot hashB st
    if r.1 = [] then (none, r.2)
    else
      let snap_json := ser r.1
      let so := store_object hashB r.2.objects snap_json
      let parent := get_branch_head r.2 (some branch)
      let cid := hashS (commit_id_string branch ts message so.1)
      let c : Commit := ⟨cid, branch, parent, ts, message, author, so.1⟩
      (some cid,
        { r.2 with
          objects := so.2,
          commits := r.2.commits ++ [c],
          branches := r.2.branches.map fun b =>
            if b.name = branch then { b with head_commit := some cid } else b })

/-- VCS.create_branch: refuse when the name is already taken, else
insert a branch row whose head is the current branch's head. -/
def create_branch (st : VCSState) (name description : String) (ts : ℚ) :
    Bool × VCSState :=
  if name ∈ st.branches.map Branch.name then (false, st)
  else
    let head := get_branch_head st st.currentBranch
    (true, { st with branches := st.branches ++ [⟨name, head, ts, description⟩] })

/-- VCS.delete_branch: refuse when the name is the current branch, else
DELETE FROM branches WHERE name = ? (a no-op if no such row) and
report success. -/
def delete_branch (st : VCSState) (name : String) : Bool × VCSState :=
  if st.currentBranch = some name then (false, st)
  else (true, { st with branches := st.branches.filter fun b => b.name ≠ name })

/-- Writing a file: overwrite the existing entry in place or create it;
its mtime becomes the time of the write. -/
def work_set (wt : List WorkFile) (p : FPath) (content : Bytes) (now : ℚ) :
    List WorkFile :=
  match wt with
  | [] => [⟨p, content, now⟩]
  | f :: t => if f.path = p then ⟨p, content, now⟩ :: t else f :: work_set t p content now

/-- VCS._restore_snapshot: delete every tracked file whose path is not
a key of the snapshot, then write each snapshot entry's object bytes
to its path, silently skipping entries whose object is missing. -/
def restore_snapshot (st : VCSState) (snap : Snapshot) (now : ℚ) : VCSState :=
  let kept := st.workTree.filter fun f => (assoc_get snap f.path).isSome
  let written := snap.foldl
    (fun wt pe =>
      match read_object st.objects pe.2.hash with
      | some content => work_set wt pe.1 content now
      | none => wt)
    kept
  { st with workTree := written }

/-- VCS.goto_tag: look the tag up, restore its commit's snapshot when
that snapshot is available and non-empty (Python truthiness of the
dict), and report whether a restore happened.  The current-branch
register is never written. -/
def goto_tag (deser : Bytes → Snapshot) (st : VCSState) (name : String) (now : ℚ) :
    Bool × VCSState :=
  match find_tag st.tags name with
  | some t =>
    match get_commit_snapshot deser st t.commit_id with
    | some snap =>
      if snap = [] then (false, st) else (true, restore_snapshot st snap now)
    | none => (false, st)
  | none => (false, st)

/-- The result dict of VCS.merge_branch.  The refusal dicts of the
source carry only `success` and `error`; the embedding fills the other
fields with their neutral values. -/
structure MergeResult where
  success : Bool
  error : Option String
  commit_id : Option String
  conflicts : List FPath
  files_merged : Nat
deriving DecidableEq, Repr

/-- VCS.merge_branch.  Returns `none` exactly where the source would
raise: when the target branch has a head commit whose snapshot cannot
be loaded, `tgt_snap` is Python `None` and `dict(tgt_snap)` throws.
Otherwise: refuse without a current branch, on a self-merge, or when
the source branch has no commits; else union the snapshots
last-writer-wins, restore the union onto the working tree, commit it
on the current branch, and report `success=True` with the conflict
paths and `len(src_snap)` as `files_merged`. -/
def merge_branch (hashB : Bytes → Digest) (hashS : String → Digest)
    (ser : Snapshot → Bytes) (deser : Bytes → Snapshot)
    (st : VCSState) (source : String) (message : Option String) (ts now : ℚ) :
    Option (MergeResult × VCSState) :=
  match st.currentBranch with
  | none => some (⟨false, some "Invalid merge target", none, [], 0⟩, st)
  | some target =>
    if source = target then some (⟨false, some "Invalid merge target", none, [], 0⟩, st)
    else
      match get_branch_head st (some source) with
      | none => some (⟨false, some "Source branch has no commits", none, [], 0⟩, st)
      | some source_head =>
        let target_head := get_branch_head st (some target)
        let src_snap := (get_commit_snapshot deser st source_head).getD []
        let tgt_opt : Option Snapshot :=
          match target_head with
          | some th => get_commit_snapshot deser st th
          | none => some []
        match tgt_opt with
        | none => none
        | some tgt_snap =>
          let mc := merge_snapshots src_snap tgt_snap
          let st1 := restore_snapshot st mc.1 now
          let msg := message.getD ("合并 '" ++ source ++ "' → '" ++ target ++ "'")
          let cr := commit hashB hashS ser st1 msg "user" ts
          some (⟨true, none, cr.1, mc.2, src_snap.length⟩, cr.2)

/-- The result dict of VCS.diff_commits. -/
structure DiffResult where
  added : Snapshot
  removed : Snapshot
  modified : List (FPath × Entry × Entry)
deriving DecidableEq, Repr

/-- VCS.diff_commits: set comparison of the two snapshots by path,
digest equality deciding modified. -/
def diff_commits (deser : Bytes → Snapshot) (st : VCSState) (cid_a cid_b : String) :
    DiffResult :=
  let sa := (get_commit_snapshot deser st cid_a).getD []
  let sb := (get_commit_snapshot deser st cid_b).getD []
  { added := sb.filter fun kv => (assoc_get sa kv.1).isNone
    removed := sa.filter fun kv => (assoc_get sb kv.1).isNone
    modified := sa.filterMap fun kv =>
      match assoc_get sb kv.1 with
      | some e2 => if kv.2.hash ≠ e2.hash then some (kv.1, kv.2, e2) else none
      | none => none }

/-- The per-file stat data of `_file_index`: `(st_mtime, st_size)`. -/
structure FileStat where
  mtime : ℚ
  size : Nat
deriving DecidableEq, Repr

/-- The fast index: the dict from relative path to stat data. -/
abbrev FileIndex := List (FPath × FileStat)

/-- VCS._file_index: stat-only scan of the working tree — no content
is read and nothing is hashed or stored. -/
def file_index (st : VCSState) : FileIndex :=
  st.workTree.foldl (fun idx f => assoc_set idx f.path ⟨f.mtime, f.content.length⟩) []

/-- The result dict of VCS.get_working_changes. -/
structure Changes where
  added : List (FPath × FileStat)
  modified : List (FPath × Entry × FileStat)
  removed : Snapshot
deriving DecidableEq, Repr

/-- The loop body for one `(rel, (mtime, size))` item of the current
index in VCS.get_working_changes, threading `(added, modified)`. -/
def classify_step (last_snap : Snapshot)
    (acc : List (FPath × FileStat) × List (FPath × Entry × FileStat))
    (pst : FPath × FileStat) : List (FPath × FileStat) × List (FPath × Entry × FileStat) :=
  match assoc_get last_snap pst.1 with
  | none => (assoc_set acc.1 pst.1 pst.2, acc.2)
  | some old =>
    if |old.mtime - pst.2.mtime| < 1 / 1000 ∧ old.size = pst.2.size then acc
    else (acc.1, acc.2 ++ [(pst.1, old, pst.2)])

/-- Lines 200-217 of `vcs.py`: classify the current index against the
baseline snapshot with the mtime+size heuristic.  The inputs are the
fast index and the baseline only — the function has no access to file
contents, the object store or a hash function. -/
def classify_changes (index : FileIndex) (last_snap : Snapshot) : Changes :=
  let am := index.foldl (classify_step last_snap) ([], [])
  { added := am.1
    modified := am.2
    removed := last_snap.filter fun kv => (assoc_get index kv.1).isNone }

/-- The modified dict `get_working_changes` ends with, characterized
directly: the index items present in the baseline whose mtime+size
fail the fast-path test. -/
def modified_of (last_snap : Snapshot) (index : FileIndex) :
    List (FPath × Entry × FileStat) :=
  index.filterMap fun pst =>
    match assoc_get last_snap pst.1 with
    | some old =>
      if |old.mtime - pst.2.mtime| < 1 / 1000 ∧ old.size = pst.2.size then none
      else some (pst.1, old, pst.2)
    | none => none

/-- VCS.get_working_changes: baseline is the current branch head's
snapshot (or the empty dict without a head); `none` marks the path on
which the source would raise (a head commit whose snapshot cannot be
loaded makes `last_snap` Python `None`, and `rel not in last_snap`
throws). -/
def get_working_changes (deser : Bytes → Snapshot) (st : VCSState) : Option Changes :=
  let head := get_branch_head st st.currentBranch
  match head with
  | none => some (classify_changes (file_index st) [])
  | some h =>
    match get_commit_snapshot deser st h with
    | none => none
    | some last_snap => some (classify_changes (file_index st) last_snap)

/-- A concrete digest function for witnesses (the claims hold for any). -/
def exHashB : Bytes → Digest := fun bs => toString bs.length

/-- A concrete commit-id digest function for witnesses. -/
def exHashS : String → Digest := fun s => toString s.length

/-- A concrete snapshot serializer for witnesses. -/
def exSer : Snapshot → Bytes := fun s => [s.length + 100]

/-- A concrete snapshot deserializer for witnesses: object `[1]` holds
main's snapshot of `x.txt`, object `[2]` holds feat's conflicting one. -/
def exDeser : Bytes → Snapshot := fun data =>
  if data = [1] then [("x.txt", ⟨"h1", 5, 0⟩)] else [("x.txt", ⟨"h2", 5, 0⟩)]

/-- A concrete two-branch repository: `main` (current, head `c1`) and
`feat` (head `c2`), whose snapshots disagree on `x.txt`. -/
def exState : VCSState where
  objects := [("s1", [1]), ("s2", [2])]
  commits := [⟨"c1", "main", none, 0, "m1", "user", "s1"⟩,
              ⟨"c2", "feat", none, 0, "m2", "user", "s2"⟩]
  branches := [⟨"main", some "c1", 0, ""⟩, ⟨"feat", some "c2", 0, ""⟩]
  currentBranch := some "main"
  tags := [⟨"v1", "c1", 0, ""⟩]
  workTree := [⟨"x.txt", [0, 0, 0, 0, 0], 0⟩]

/-- The computed result of merging `feat` into `main` on `exState`. -/
def exMergeOut : MergeResult × VCSState :=
  (merge_branch exHashB exHashS exSer exDeser exState "feat" none 1 1).getD
    (⟨false, none, none, [], 0⟩, exState)

/-- A second deserializer: main's snapshot holds `a.txt` alone, feat's
holds the identical `a.txt` plus a new `b.txt` — so a merge overwrites
or adds only one path while the source snapshot has two. -/
def exDeser2 : Bytes → Snapshot := fun data =>
  if data = [1] then [("a.txt", ⟨"ha", 1, 0⟩)]
  else [("a.txt", ⟨"ha", 1, 0⟩), ("b.txt", ⟨"hb", 1, 0⟩)]

/-- The repository of `exState` with `exDeser2`'s working tree. -/
def exState2 : VCSState :=
  { exState with workTree := [⟨"a.txt", [0], 0⟩] }

/-- The computed result of merging `feat` into `main` on `exState2`. -/
def exMergeOut2 : MergeResult × VCSState :=
  (merge_branch exHashB exHashS exSer exDeser2 exState2 "feat" none 1 1).getD
    (⟨false, none, none, [], 0⟩, exState2)

/-- The repository of `exState` with an empty working tree: a commit
must be refused (the computed snapshot is empty). -/
def exStateEmpty : VCSState :=
  { exState with workTree := [] }

/-- The computed result of committing on `exState`. -/
def exCommitOut : Option String × VCSState :=
  commit exHashB exHashS exSer exState "m" "user" 1

theorem assoc_get_set_self {κ β : Type} [DecidableEq κ] (l : List (κ × β)) (k : κ) (v : β) :
    assoc_get (assoc_set l k v) k = some v := by
  induction l with
  | nil => simp [assoc_set, assoc_get]
  | cons h t ih =>
    obtain ⟨k', v'⟩ := h
    by_cases hk : k' = k
    · simp [assoc_set, assoc_get, hk]
    · simp [assoc_set, assoc_get, hk, ih]

theorem assoc_get_set_ne {κ β : Type} [DecidableEq κ] (l : List (κ × β)) (k k' : κ) (v : β)
    (hne : k' ≠ k) : assoc_get (assoc_set l k v) k' = assoc_get l k' := by
  induction l with
  | nil => simp [assoc_set, assoc_get, Ne.symm hne]
  | cons h t ih =>
    obtain ⟨k₀, v₀⟩ := h
    by_cases hk : k₀ = k
    · subst hk
      simp [assoc_set, assoc_get, Ne.symm hne]
    · simp only [assoc_set, if_neg hk, assoc_get]
      by_cases hk' : k₀ = k'
      · simp [hk']
      · simp [hk', ih]

theorem assoc_get_eq_some_mem {κ β : Type} [DecidableEq κ] {l : List (κ × β)} {k : κ} {v : β}
    (h : assoc_get l k = some v) : (k, v) ∈ l := by
  induction l with
  | nil => simp [assoc_get] at h
  | cons hd t ih =>
    obtain ⟨k', v'⟩ := hd
    by_cases hk : k' = k
    · subst hk
      simp [assoc_get] at h
      simp [h]
    · simp only [assoc_get, if_neg hk] at h
      exact List.mem_cons_of_mem _ (ih h)

theorem assoc_get_eq_none_not_mem {κ β : Type} [DecidableEq κ] {l : List (κ × β)} {k : κ}
    (h : assoc_get l k = none) : k ∉ assoc_keys l := by
  induction l with
  | nil => simp [assoc_keys]
  | cons hd t ih =>
    obtain ⟨k', v'⟩ := hd
    by_cases hk : k' = k
    · simp [assoc_get, hk] at h
    · simp only [assoc_get, if_neg hk] at h
      intro hmem
      simp only [assoc_keys, List.map_cons, List.mem_cons] at hmem
      rcases hmem with he | hmt
      · exact hk he.symm
      · exact ih h hmt

theorem mem_assoc_get_of_nodup {κ β : Type} [DecidableEq κ] {l : List (κ × β)} {k : κ} {v : β}
    (hnd : (assoc_keys l).Nodup) (hm : (k, v) ∈ l) : assoc_get l k = some v := by
  induction l with
  | nil => simp at hm
  | cons hd t ih =>
    obtain ⟨k', v'⟩ := hd
    simp only [assoc_keys, List.map_cons, List.nodup_cons] at hnd
    rcases List.mem_cons.mp hm with heq | hmt
    · injection heq with hk hv
      subst hk; subst hv
      simp [assoc_get]
    · have hk : k' ≠ k := by
        intro he
        subst he
        exact hnd.1 (List.mem_map.mpr ⟨(k', v), hmt, rfl⟩)
      simp [assoc_get, hk]
      exact ih hnd.2 hmt

theorem assoc_get_append_new {κ β : Type} [DecidableEq κ] (l : List (κ × β)) (k : κ) (v : β)
    (h : assoc_get l k = none) : assoc_get (l ++ [(k, v)]) k = some v := by
  induction l with
  | nil => simp [assoc_get]
  | cons hd t ih =>
    obtain ⟨k', v'⟩ := hd
    by_cases hk : k' = k
    · simp [assoc_get, hk] at h
    · simp only [assoc_get, if_neg hk] at h ⊢
      exact ih h

theorem merge_step_snd (tgt_snap : Snapshot) (acc : Snapshot × List FPath)
    (pe : FPath × Entry) :
    (merge_step tgt_snap acc pe).2 =
      acc.2 ++ (if conflict_of tgt_snap pe then [pe.1] else []) := by
  unfold merge_step conflict_of
  cases h : assoc_get tgt_snap pe.1 with
  | none => simp
  | some old =>
    by_cases hh : old.hash ≠ pe.2.hash
    · simp [hh]
    · simp [hh]

theorem merge_fold_conflicts (tgt_snap : Snapshot) (src_snap : Snapshot)
    (acc : Snapshot × List FPath) :
    (src_snap.foldl (merge_step tgt_snap) acc).2 =
      acc.2 ++ (src_snap.filter (conflict_of tgt_snap)).map Prod.fst := by
  induction src_snap generalizing acc with
  | nil => simp
  | cons pe t ih =>
    simp only [List.foldl_cons, ih, List.filter_cons]
    rw [merge_step_snd]
    by_cases hc : conflict_of tgt_snap pe
    · simp [hc, List.append_assoc]
    · simp [hc]

theorem merge_fold_fst_frame (tgt_snap : Snapshot) (src_snap : Snapshot)
    (acc : Snapshot × List FPath) (p : FPath)
    (hnot : p ∉ assoc_keys src_snap) :
    assoc_get (src_snap.foldl (merge_step tgt_snap) acc).1 p = assoc_get acc.1 p := by
  induction src_snap generalizing acc with
  | nil => simp
  | cons pe t ih =>
    simp only [assoc_keys, List.map_cons, List.mem_cons, not_or] at hnot
    obtain ⟨hne, hnt⟩ := hnot
    rw [List.foldl_cons, ih _ hnt]
    unfold merge_step
    cases h : assoc_get tgt_snap pe.1 with
    | none => exact assoc_get_set_ne _ _ _ _ hne
    | some old =>
      by_cases hh : old.hash ≠ pe.2.hash
      · simp only [if_pos hh]
        exact assoc_get_set_ne _ _ _ _ hne
      · simp [hh]

theorem merge_fold_fst_absent (tgt_snap : Snapshot) (src_snap : Snapshot)
    (acc : Snapshot × List FPath) (p : FPath) (e : Entry)
    (hnd : (assoc_keys src_snap).Nodup)
    (hsrc : assoc_get src_snap p = some e)
    (htgt : assoc_get tgt_snap p = none) :
    assoc_get (src_snap.foldl (merge_step tgt_snap) acc).1 p = some e := by
  induction src_snap generalizing acc with
  | nil => simp [assoc_get] at hsrc
  | cons pe t ih =>
    obtain ⟨q, e'⟩ := pe
    simp only [assoc_keys, List.map_cons, List.nodup_cons] at hnd
    by_cases hq : q = p
    · subst hq
      have he : e' = e := by simpa [assoc_get] using hsrc
      subst he
      rw [List.foldl_cons]
      rw [merge_fold_fst_frame _ _ _ _ hnd.1]
      unfold merge_step
      simp only [htgt]
      exact assoc_get_set_self _ _ _
    · simp only [assoc_get, if_neg hq] at hsrc
      rw [List.foldl_cons]
      exact ih _ hnd.2 hsrc

theorem merge_fold_fst_conflict (tgt_snap : Snapshot) (src_snap : Snapshot)
    (acc : Snapshot × List FPath) (p : FPath) (e old : Entry)
    (hnd : (assoc_keys src_snap).Nodup)
    (hsrc : assoc_get src_snap p = some e)
    (htgt : assoc_get tgt_snap p = some old)
    (hdif : old.hash ≠ e.hash) :
    assoc_get (src_snap.foldl (merge_step tgt_snap) acc).1 p = some e := by
  induction src_snap generalizing acc with
  | nil => simp [assoc_get] at hsrc
  | cons pe t ih =>
    obtain ⟨q, e'⟩ := pe
    simp only [assoc_keys, List.map_cons, List.nodup_cons] at hnd
    by_cases hq : q = p
    · subst hq
      have he : e' = e := by simpa [assoc_get] using hsrc
      subst he
      rw [List.foldl_cons]
      rw [merge_fold_fst_frame _ _ _ _ hnd.1]
      unfold merge_step
      simp only [htgt, if_pos hdif]
      exact assoc_get_set_self _ _ _
    · simp only [assoc_get, if_neg hq] at hsrc
      rw [List.foldl_cons]
      exact ih _ hnd.2 hsrc

/-- C3: for every byte string `b`, if `_store_object(b)` returns digest
`d`, then `_read_object(d)` returns exactly `b`, provided the store is
well formed (each blob sits under the digest of its own bytes) and no
stored byte string distinct from `b` shares `b`'s truncated digest. -/
theorem store_read_round_trip (hashB : Bytes → Digest) (objects : Objects) (b : Bytes)
    (hwf : ∀ q ∈ objects, q.1 = hashB q.2)
    (hcoll : ∀ q ∈ objects, hashB q.2 = hashB b → q.2 = b) :
    read_object (store_object hashB objects b).2 (store_object hashB objects b).1 =
      some b := by
  unfold store_object read_object
  cases h : assoc_get objects (hashB b) with
  | some c =>
    have hm := assoc_get_eq_some_mem h
    have h1 : hashB b = hashB c := hwf _ hm
    have h2 : c = b := hcoll _ hm h1.symm
    simp only [h]
    simp [h2]
  | none =>
    simp only [h]
    exact assoc_get_append_new objects (hashB b) b h

/-- Witness for C3 at a concrete store and byte string. -/
theorem store_read_round_trip_witness :
    read_object (store_object (fun bs => toString bs.length) [("0", [])] [1, 2]).2
        (store_object (fun bs => toString bs.length) [("0", [])] [1, 2]).1 =
      some [1, 2] :=
  store_read_round_trip (fun bs => toString bs.length) [("0", [])] [1, 2]
    (by decide) (by decide)

/-- C5: for any two commits, the paths reported added by
`diff_commits(a, b)` are exactly the paths reported removed by
`diff_commits(b, a)`. -/
theorem diff_added_removed_symmetry (deser : Bytes → Snapshot) (st : VCSState)
    (cid_a cid_b : String) (p : FPath) :
    p ∈ assoc_keys (diff_commits deser st cid_a cid_b).added ↔
    p ∈ assoc_keys (diff_commits deser st cid_b cid_a).removed :=
  Iff.rfl

/-- C1: last-writer-wins merge.  A source path absent from the target
snapshot is added with the source's entry; a source path present in
the target with a different digest is recorded in the conflicts list
and the merged snapshot maps it to the source's entry; and whenever
the refusal preconditions of `merge_branch` pass, the result has
`success = True` no matter what the conflicts are. -/
theorem merge_last_writer_wins :
    (∀ src_snap tgt_snap : Snapshot, ∀ p e, (assoc_keys src_snap).Nodup →
        assoc_get src_snap p = some e → assoc_get tgt_snap p = none →
        assoc_get (merge_snapshots src_snap tgt_snap).1 p = some e) ∧
    (∀ src_snap tgt_snap : Snapshot, ∀ p e old, (assoc_keys src_snap).Nodup →
        assoc_get src_snap p = some e → assoc_get tgt_snap p = some old →
        old.hash ≠ e.hash →
        p ∈ (merge_snapshots src_snap tgt_snap).2 ∧
        assoc_get (merge_snapshots src_snap tgt_snap).1 p = some e) ∧
    (∀ hashB hashS ser deser st source target message ts now res st',
        st.currentBranch = some target → source ≠ target →
        (get_branch_head st (some source)).isSome = true →
        merge_branch hashB hashS ser deser st source message ts now = some (res, st') →
        res.success = true) := by
  refine ⟨?_, ?_, ?_⟩
  · intro src_snap tgt_snap p e hnd hs ht
    exact merge_fold_fst_absent tgt_snap src_snap _ p e hnd hs ht
  · intro src_snap tgt_snap p e old hnd hs ht hdif
    constructor
    · rw [merge_snapshots, merge_fold_conflicts]
      simp only [List.nil_append]
      refine List.mem_map.mpr ⟨(p, e), List.mem_filter.mpr ⟨assoc_get_eq_some_mem hs, ?_⟩, rfl⟩
      unfold conflict_of
      simp [ht, hdif]
    · exact merge_fold_fst_conflict tgt_snap src_snap _ p e old hnd hs ht hdif
  · intro hashB hashS ser deser st source target message ts now res st' hcur hne hsh hmb
    unfold merge_branch at hmb
    simp only [hcur] at hmb
    rw [if_neg hne] at hmb
    obtain ⟨sh, hgb⟩ := Option.isSome_iff_exists.mp hsh
    simp only [hgb] at hmb
    split at hmb
    · exact absurd hmb (by simp)
    · simp only [Option.some.injEq, Prod.mk.injEq] at hmb
      rw [← hmb.1]

/-- Witness for C1: part one on a one-file source and empty target;
part two on a genuine digest conflict; part three on a concrete
repository where merging `feat` into the current branch `main` hits a
conflict on `x.txt` and still succeeds. -/
theorem merge_last_writer_wins_witness :
    assoc_get (merge_snapshots [("a", ⟨"h1", 1, 0⟩)] []).1 "a" = some ⟨"h1", 1, 0⟩ ∧
    ("x" ∈ (merge_snapshots [("x", ⟨"h2", 1, 0⟩)] [("x", ⟨"h1", 1, 0⟩)]).2 ∧
      assoc_get (merge_snapshots [("x", ⟨"h2", 1, 0⟩)] [("x", ⟨"h1", 1, 0⟩)]).1 "x" =
        some ⟨"h2", 1, 0⟩) ∧
    exMergeOut.1.success = true :=
  ⟨merge_last_writer_wins.1 [("a", ⟨"h1", 1, 0⟩)] [] "a" ⟨"h1", 1, 0⟩
      (by decide) (by decide) (by decide),
   merge_last_writer_wins.2.1 [("x", ⟨"h2", 1, 0⟩)] [("x", ⟨"h1", 1, 0⟩)] "x"
      ⟨"h2", 1, 0⟩ ⟨"h1", 1, 0⟩ (by decide) (by decide) (by decide) (by decide),
   merge_last_writer_wins.2.2 exHashB exHashS exSer exDeser exState "feat" "main"
      none 1 1 exMergeOut.1 exMergeOut.2 rfl (by decide) rfl rfl⟩

/-- C9: a successful `merge_branch` reports `files_merged` equal to the
total number of paths in the source branch's head snapshot — the
length of `src_snap`, which also counts paths identical in both
branches, not only paths added or overwritten. -/
theorem merge_files_merged_total (hashB : Bytes → Digest) (hashS : String → Digest)
    (ser : Snapshot → Bytes) (deser : Bytes → Snapshot) (st : VCSState)
    (source target source_head : String) (message : Option String) (ts now : ℚ)
    (res : MergeResult) (st' : VCSState)
    (hcur : st.currentBranch = some target) (hne : source ≠ target)
    (hsh : get_branch_head st (some source) = some source_head)
    (hmb : merge_branch hashB hashS ser deser st source message ts now = some (res, st')) :
    res.files_merged = ((get_commit_snapshot deser st source_head).getD []).length := by
  unfold merge_branch at hmb
  simp only [hcur] at hmb
  rw [if_neg hne] at hmb
  simp only [hsh] at hmb
  split at hmb
  · exact absurd hmb (by simp)
  · simp only [Option.some.injEq, Prod.mk.injEq] at hmb
    rw [← hmb.1]

/-- Witness for C9: on `exState2` the source snapshot has two paths,
one of them byte-identical in the target, and `files_merged` is 2. -/
theorem merge_files_merged_total_witness : exMergeOut2.1.files_merged = 2 :=
  (merge_files_merged_total exHashB exHashS exSer exDeser2 exState2 "feat" "main"
      "c2" none 1 1 exMergeOut2.1 exMergeOut2.2 rfl (by decide) rfl rfl).trans
    (by decide)

/-- C2: `commit` returns an absent id exactly when there is no current
branch or the computed snapshot of the tracked tree is empty, and on
such a refusal the commit table and the branch table (hence every
branch head) are left unchanged. -/
theorem commit_refusal_iff (hashB : Bytes → Digest) (hashS : String → Digest)
    (ser : Snapshot → Bytes) (st : VCSState) (message author : String) (ts : ℚ) :
    ((commit hashB hashS ser st message author ts).1 = none ↔
      st.currentBranch = none ∨ (take_snapshot hashB st).1 = []) ∧
    ((commit hashB hashS ser st message author ts).1 = none →
      (commit hashB hashS ser st message author ts).2.commits = st.commits ∧
      (commit hashB hashS ser st message author ts).2.branches = st.branches) := by
  unfold commit
  cases hcb : st.currentBranch with
  | none => simp
  | some branch =>
    by_cases hsnap : (take_snapshot hashB st).1 = []
    · simp only [hsnap, if_pos rfl]
      refine ⟨by simp, fun _ => ?_⟩
      constructor
      · show (take_snapshot hashB st).2.commits = st.commits
        simp [take_snapshot]
      · show (take_snapshot hashB st).2.branches = st.branches
        simp [take_snapshot]
    · simp [hsnap]

/-- Witness for C2 at a repository whose snapshot computes empty: the
commit is refused and the tables are untouched. -/
theorem commit_refusal_iff_witness :
    ((commit exHashB exHashS exSer exStateEmpty "m" "user" 1).1 = none ↔
      exStateEmpty.currentBranch = none ∨ (take_snapshot exHashB exStateEmpty).1 = []) ∧
    ((commit exHashB exHashS exSer exStateEmpty "m" "user" 1).1 = none →
      (commit exHashB exHashS exSer exStateEmpty "m" "user" 1).2.commits =
        exStateEmpty.commits ∧
      (commit exHashB exHashS exSer exStateEmpty "m" "user" 1).2.branches =
        exStateEmpty.branches) :=
  commit_refusal_iff exHashB exHashS exSer exStateEmpty "m" "user" 1

theorem find_branch_map_update (bs : List Branch) (target name : String) (cid : String)
    (hne : name ≠ target) :
    find_branch
        (bs.map fun b => if b.name = target then { b with head_commit := some cid } else b)
        name =
      find_branch bs name := by
  induction bs with
  | nil => rfl
  | cons b t ih =>
    simp only [List.map_cons]
    by_cases hb : b.name = target
    · have h2 : ¬b.name = name := fun he => hne (he ▸ hb)
      simp only [find_branch, if_pos hb]
      rw [if_neg (show ¬({ b with head_commit := some cid } : Branch).name = name from h2)]
      rw [if_neg h2]
      exact ih
    · simp only [find_branch, if_neg hb]
      by_cases hbn : b.name = name
      · simp [hbn]
      · simp [hbn, ih]

/-- C6: a successful commit on the current branch leaves the branch row
of every other branch name exactly as it was. -/
theorem commit_branch_isolation (hashB : Bytes → Digest) (hashS : String → Digest)
    (ser : Snapshot → Bytes) (st : VCSState) (message author : String) (ts : ℚ)
    (target name cid : String) (st' : VCSState)
    (hcur : st.currentBranch = some target)
    (hcm : commit hashB hashS ser st message author ts = (some cid, st'))
    (hne : name ≠ target) :
    find_branch st'.branches name = find_branch st.branches name := by
  unfold commit at hcm
  simp only [hcur] at hcm
  by_cases hsnap : (take_snapshot hashB st).1 = []
  · rw [if_pos hsnap] at hcm
    simp at hcm
  · rw [if_neg hsnap] at hcm
    simp only [Prod.mk.injEq, Option.some.injEq] at hcm
    obtain ⟨hcid, hst⟩ := hcm
    subst hst
    rw [find_branch_map_update _ _ _ _ hne]
    rfl

/-- Witness for C6: committing on current branch `main` of `exState`
leaves branch `feat`'s row unchanged. -/
theorem commit_branch_isolation_witness :
    find_branch exCommitOut.2.branches "feat" = find_branch exState.branches "feat" :=
  commit_branch_isolation exHashB exHashS exSer exState "m" "user" 1 "main" "feat"
    (exCommitOut.1.getD "") exCommitOut.2 rfl rfl (by decide)

theorem find_branch_append_not_mem (bs : List Branch) (b : Branch)
    (hnot : b.name ∉ bs.map Branch.name) :
    find_branch (bs ++ [b]) b.name = some b := by
  induction bs with
  | nil => simp [find_branch]
  | cons x t ih =>
    simp only [List.map_cons, List.mem_cons, not_or] at hnot
    rw [List.cons_append]
    simp only [find_branch]
    rw [if_neg fun he => hnot.1 he.symm]
    exact ih hnot.2

/-- C7: `create_branch` returns false and changes nothing when the name
exists; otherwise it returns true and inserts a branch row whose head
is the current branch's head at creation time (possibly none), making
no new commit. -/
theorem create_branch_spec (st : VCSState) (name description : String) (ts : ℚ) :
    (name ∈ st.branches.map Branch.name →
      create_branch st name description ts = (false, st)) ∧
    (name ∉ st.branches.map Branch.name →
      (create_branch st name description ts).1 = true ∧
      find_branch (create_branch st name description ts).2.branches name =
        some ⟨name, get_branch_head st st.currentBranch, ts, description⟩ ∧
      (create_branch st name description ts).2.commits = st.commits) := by
  constructor
  · intro hmem
    simp [create_branch, hmem]
  · intro hnot
    unfold create_branch
    rw [if_neg hnot]
    exact ⟨rfl, find_branch_append_not_mem st.branches ⟨name, _, ts, description⟩ hnot, rfl⟩

/-- Witness for C7: on `exState`, re-creating `feat` is refused and
creating `dev` succeeds, head initialized to `main`'s head `c1`. -/
theorem create_branch_spec_witness :
    create_branch exState "feat" "" 2 = (false, exState) ∧
    ((create_branch exState "dev" "" 2).1 = true ∧
      find_branch (create_branch exState "dev" "" 2).2.branches "dev" =
        some ⟨"dev", get_branch_head exState exState.currentBranch, 2, ""⟩ ∧
      (create_branch exState "dev" "" 2).2.commits = exState.commits) :=
  ⟨(create_branch_spec exState "feat" "" 2).1 (by decide),
   (create_branch_spec exState "dev" "" 2).2 (by decide)⟩

/-- C8: `goto_tag` never changes the current-branch register, whatever
the tag name and whether or not the tag exists or its snapshot can be
restored. -/
theorem goto_tag_preserves_current_branch (deser : Bytes → Snapshot) (st : VCSState)
    (name : String) (now : ℚ) :
    (goto_tag deser st name now).2.currentBranch = st.currentBranch := by
  unfold goto_tag
  split
  · split
    · split <;> rfl
    · rfl
  · rfl

/-- C10: `delete_branch` returns true for every name other than the
current branch, a nonexistent name included — in which case the branch
table (and the whole state) is unchanged and success is still
reported. -/
theorem delete_branch_noncurrent_true (st : VCSState) (name : String)
    (h : st.currentBranch ≠ some name) :
    (delete_branch st name).1 = true ∧
    ((∀ b ∈ st.branches, b.name ≠ name) → (delete_branch st name).2 = st) := by
  unfold delete_branch
  rw [if_neg h]
  refine ⟨rfl, fun hall => ?_⟩
  have hf : st.branches.filter (fun b => b.name ≠ name) = st.branches := by
    rw [List.filter_eq_self]
    intro b hb
    simpa using hall b hb
  show { st with branches := st.branches.filter fun b => b.name ≠ name } = st
  rw [hf]

/-- Witness for C10: deleting the nonexistent branch `ghost` on
`exState` reports success and leaves the state unchanged. -/
theorem delete_branch_noncurrent_true_witness :
    (delete_branch exState "ghost").1 = true ∧
    ((∀ b ∈ exState.branches, b.name ≠ "ghost") →
      (delete_branch exState "ghost").2 = exState) :=
  delete_branch_noncurrent_true exState "ghost" (by decide)

theorem classify_step_snd (last_snap : Snapshot)
    (acc : List (FPath × FileStat) × List (FPath × Entry × FileStat))
    (pst : FPath × FileStat) :
    (classify_step last_snap acc pst).2 =
      acc.2 ++
        (match assoc_get last_snap pst.1 with
          | some old =>
            if |old.mtime - pst.2.mtime| < 1 / 1000 ∧ old.size = pst.2.size then []
            else [(pst.1, old, pst.2)]
          | none => []) := by
  unfold classify_step
  cases h : assoc_get last_snap pst.1 with
  | none => simp
  | some old =>
    simp only []
    by_cases hc : |old.mtime - pst.2.mtime| < 1 / 1000 ∧ old.size = pst.2.size
    · rw [if_pos hc, if_pos hc]
      simp
    · rw [if_neg hc, if_neg hc]

theorem classify_fold_modified (last_snap : Snapshot) (index : FileIndex)
    (acc : List (FPath × FileStat) × List (FPath × Entry × FileStat)) :
    (index.foldl (classify_step last_snap) acc).2 =
      acc.2 ++ modified_of last_snap index := by
  induction index generalizing acc with
  | nil => simp [modified_of]
  | cons pst t ih =>
    rw [List.foldl_cons, ih, classify_step_snd]
    unfold modified_of
    rw [List.filterMap_cons]
    cases h : assoc_get last_snap pst.1 with
    | none => simp
    | some old =>
      simp only []
      by_cases hc : |old.mtime - pst.2.mtime| < 1 / 1000 ∧ old.size = pst.2.size
      · rw [if_pos hc, if_pos hc]
        simp
      · rw [if_neg hc, if_neg hc]
        simp

theorem classify_fold_added_frame (last_snap : Snapshot) (index : FileIndex)
    (acc : List (FPath × FileStat) × List (FPath × Entry × FileStat)) (p : FPath)
    (hnot : p ∉ assoc_keys index) :
    assoc_get (index.foldl (classify_step last_snap) acc).1 p = assoc_get acc.1 p := by
  induction index generalizing acc with
  | nil => simp
  | cons pst t ih =>
    simp only [assoc_keys, List.map_cons, List.mem_cons, not_or] at hnot
    obtain ⟨hne, hnt⟩ := hnot
    rw [List.foldl_cons, ih _ hnt]
    unfold classify_step
    cases h : assoc_get last_snap pst.1 with
    | none => exact assoc_get_set_ne _ _ _ _ hne
    | some old =>
      simp only []
      by_cases hc : |old.mtime - pst.2.mtime| < 1 / 1000 ∧ old.size = pst.2.size
      · rw [if_pos hc]
      · rw [if_neg hc]

theorem classify_fold_added_absent (last_snap : Snapshot) (index : FileIndex)
    (acc : List (FPath × FileStat) × List (FPath × Entry × FileStat))
    (p : FPath) (stat : FileStat)
    (hnd : (assoc_keys index).Nodup)
    (hidx : assoc_get index p = some stat)
    (hsnap : assoc_get last_snap p = none) :
    assoc_get (index.foldl (classify_step last_snap) acc).1 p = some stat := by
  induction index generalizing acc with
  | nil => simp [assoc_get] at hidx
  | cons pst t ih =>
    obtain ⟨q, s⟩ := pst
    simp only [assoc_keys, List.map_cons, List.nodup_cons] at hnd
    by_cases hq : q = p
    · subst hq
      have hs : s = stat := by simpa [assoc_get] using hidx
      subst hs
      rw [List.foldl_cons]
      rw [classify_fold_added_frame _ _ _ _ hnd.1]
      unfold classify_step
      simp only [hsnap]
      exact assoc_get_set_self _ _ _
    · simp only [assoc_get, if_neg hq] at hidx
      rw [List.foldl_cons]
      exact ih _ hnd.2 hidx

theorem classify_fold_added_present (last_snap : Snapshot) (index : FileIndex)
    (acc : List (FPath × FileStat) × List (FPath × Entry × FileStat))
    (p : FPath) (old : Entry)
    (hsnap : assoc_get last_snap p = some old) :
    assoc_get (index.foldl (classify_step last_snap) acc).1 p = assoc_get acc.1 p := by
  induction index generalizing acc with
  | nil => simp
  | cons pst t ih =>
    obtain ⟨q, s⟩ := pst
    rw [List.foldl_cons, ih]
    by_cases hq : q = p
    · subst hq
      unfold classify_step
      simp only [hsnap]
      by_cases hc : |old.mtime - s.mtime| < 1 / 1000 ∧ old.size = s.size
      · rw [if_pos hc]
      · rw [if_neg hc]
    · unfold classify_step
      cases h : assoc_get last_snap q with
      | none => exact assoc_get_set_ne _ _ _ _ fun he => hq he.symm
      | some o =>
        simp only []
        by_cases hc : |o.mtime - s.mtime| < 1 / 1000 ∧ o.size = s.size
        · rw [if_pos hc]
        · rw [if_neg hc]

/-- C4: the change classification of `get_working_changes`.  A path of
the fast index absent from the baseline is added (with its stat data);
a path in both whose mtime differs by less than one millisecond and
whose size matches is omitted from all three dicts; any other mismatch
makes it modified; and a baseline path absent from the index is
removed.  `classify_changes` is the loop of lines 200-217; it takes
only the stat index and the baseline, so no content is read or hashed;
the last conjunct ties it to `get_working_changes` itself. -/
theorem working_changes_classification :
    (∀ index last_snap p stat, (assoc_keys index).Nodup →
        assoc_get index p = some stat → assoc_get last_snap p = none →
        assoc_get (classify_changes index last_snap).added p = some stat) ∧
    (∀ index last_snap p stat old, (assoc_keys index).Nodup →
        assoc_get index p = some stat → assoc_get last_snap p = some old →
        |old.mtime - stat.mtime| < 1 / 1000 → old.size = stat.size →
        p ∉ assoc_keys (classify_changes index last_snap).added ∧
        (∀ m ∈ (classify_changes index last_snap).modified, m.1 ≠ p) ∧
        p ∉ assoc_keys (classify_changes index last_snap).removed) ∧
    (∀ index last_snap p stat old, (assoc_keys index).Nodup →
        assoc_get index p = some stat → assoc_get last_snap p = some old →
        ¬(|old.mtime - stat.mtime| < 1 / 1000 ∧ old.size = stat.size) →
        (p, old, stat) ∈ (classify_changes index last_snap).modified) ∧
    (∀ index last_snap p old,
        assoc_get last_snap p = some old → assoc_get index p = none →
        (p, old) ∈ (classify_changes index last_snap).removed) ∧
    (∀ deser st h last_snap,
        get_branch_head st st.currentBranch = some h →
        get_commit_snapshot deser st h = some last_snap →
        get_working_changes deser st = some (classify_changes (file_index st) last_snap)) := by
  refine ⟨?_, ?_, ?_, ?_, ?_⟩
  · intro index last_snap p stat hnd hidx hsnap
    exact classify_fold_added_absent last_snap index ([], []) p stat hnd hidx hsnap
  · intro index last_snap p stat old hnd hidx hsnap hmt hsz
    refine ⟨?_, ?_, ?_⟩
    · have h1 : assoc_get (classify_changes index last_snap).added p = none := by
        show assoc_get (index.foldl (classify_step last_snap) ([], [])).1 p = none
        rw [classify_fold_added_present last_snap index ([], []) p old hsnap]
        rfl
      exact assoc_get_eq_none_not_mem h1
    · intro m hm hmp
      have hmod : m ∈ modified_of last_snap index := by
        have heq : (classify_changes index last_snap).modified =
            modified_of last_snap index := by
          show (index.foldl (classify_step last_snap) ([], [])).2 =
            modified_of last_snap index
          rw [classify_fold_modified]
          simp
        rw [heq] at hm
        exact hm
      obtain ⟨a, ha, hfa⟩ := List.mem_filterMap.mp hmod
      obtain ⟨q, s⟩ := a
      simp only at hfa
      cases hq : assoc_get last_snap q with
      | none => rw [hq] at hfa; exact absurd hfa (by simp)
      | some o =>
        rw [hq] at hfa
        simp only [] at hfa
        by_cases hc : |o.mtime - s.mtime| < 1 / 1000 ∧ o.size = s.size
        · rw [if_pos hc] at hfa
          exact absurd hfa (by simp)
        · rw [if_neg hc] at hfa
          injection hfa with hqos
          subst hqos
          simp only at hmp
          subst hmp
          have h2 := mem_assoc_get_of_nodup hnd ha
          rw [hidx] at h2
          injection h2 with h3
          subst h3
          rw [hsnap] at hq
          injection hq with ho
          subst ho
          exact hc ⟨hmt, hsz⟩
    · intro hmem
      simp only [assoc_keys] at hmem
      obtain ⟨x, hx, hxp⟩ := List.mem_map.mp hmem
      have hx2 := List.mem_filter.mp hx
      rw [hxp] at hx2
      rw [hidx] at hx2
      simp at hx2
  · intro index last_snap p stat old hnd hidx hsnap hcond
    show (p, old, stat) ∈ (index.foldl (classify_step last_snap) ([], [])).2
    rw [classify_fold_modified last_snap index ([], [])]
    simp only [List.nil_append]
    refine List.mem_filterMap.mpr ⟨(p, stat), assoc_get_eq_some_mem hidx, ?_⟩
    simp only [hsnap]
    rw [if_neg hcond]
  · intro index last_snap p old hsnap hidx
    refine List.mem_filter.mpr ⟨assoc_get_eq_some_mem hsnap, ?_⟩
    simp [hidx]
  · intro deser st h last_snap hh hs
    unfold get_working_changes
    simp only [hh, hs]

/-- Witness for C4: one added, one unchanged, one modified path, one
removed path, and the `get_working_changes` tie-in on `exState`. -/
theorem working_changes_classification_witness :
    assoc_get (classify_changes [("n", ⟨0, 1⟩)] []).added "n" = some ⟨0, 1⟩ ∧
    ("u" ∉ assoc_keys (classify_changes [("u", ⟨0, 1⟩)] [("u", ⟨"h", 1, 0⟩)]).added ∧
      (∀ m ∈ (classify_changes [("u", ⟨0, 1⟩)] [("u", ⟨"h", 1, 0⟩)]).modified, m.1 ≠ "u") ∧
      "u" ∉ assoc_keys (classify_changes [("u", ⟨0, 1⟩)] [("u", ⟨"h", 1, 0⟩)]).removed) ∧
    ("m", ⟨"h", 1, 0⟩, ⟨0, 2⟩) ∈ (classify_changes [("m", ⟨0, 2⟩)] [("m", ⟨"h", 1, 0⟩)]).modified ∧
    ("r", ⟨"h", 1, 0⟩) ∈ (classify_changes [] [("r", ⟨"h", 1, 0⟩)]).removed ∧
    get_working_changes exDeser exState =
      some (classify_changes (file_index exState) [("x.txt", ⟨"h1", 5, 0⟩)]) :=
  ⟨working_changes_classification.1 [("n", ⟨0, 1⟩)] [] "n" ⟨0, 1⟩
      (by decide) (by decide) (by decide),
   working_changes_classification.2.1 [("u", ⟨0, 1⟩)] [("u", ⟨"h", 1, 0⟩)] "u"
      ⟨0, 1⟩ ⟨"h", 1, 0⟩ (by decide) (by decide) (by decide) (by simp) (by decide),
   working_changes_classification.2.2.1 [("m", ⟨0, 2⟩)] [("m", ⟨"h", 1, 0⟩)] "m"
      ⟨0, 2⟩ ⟨"h", 1, 0⟩ (by decide) (by decide) (by decide) (by simp),
   working_changes_classification.2.2.2.1 [] [("r", ⟨"h", 1, 0⟩)] "r" ⟨"h", 1, 0⟩
      (by decide) (by decide),
   working_changes_classification.2.2.2.2 exDeser exState "c1" [("x.txt", ⟨"h1", 5, 0⟩)]
      rfl rfl⟩

end Quelldex
